import Mathlib

/-!
Verification of the batching, ordering, caching and beam-search orchestration
logic of `nematus/inference.py` (`InferenceModelSet` and `translate_file`).

The pipeline is embedded shallowly: sentences are an abstract type `α`, the
external collaborators (`util.read_all_lines`, `rnn_inference.beam_search`,
`util.seq2words`, ...) are modelled from the specification of their contracts,
and the orchestration code (`translate_file`, `translate_maxibatch`, the
`InferenceModelSet` caches) is translated directly from the source.
-/

namespace Nematus

/-- Comparison of elements by a key function into a linear order.  Used to
model the length-ascending sort in the batcher and the cost-ascending sorts in
beam search. -/
def keyLe {α β : Type} [LinearOrder β] (f : α → β) (a b : α) : Prop := f a ≤ f b

instance {α β : Type} [LinearOrder β] (f : α → β) : IsTotal α (keyLe f) :=
  ⟨fun a b => le_total (f a) (f b)⟩

instance {α β : Type} [LinearOrder β] (f : α → β) : IsTrans α (keyLe f) :=
  ⟨fun _ _ _ h1 h2 => le_trans h1 h2⟩

instance {α β : Type} [LinearOrder β] (f : α → β) : DecidableRel (keyLe f) :=
  fun a b => inferInstanceAs (Decidable (f a ≤ f b))

/-- Model of `numpy.argsort` on a list of distinct naturals: the positions of
the list, ordered so that the corresponding values are ascending (this is
`idxs.argsort()` in `translate_maxibatch`). -/
def argsort (xs : List Nat) : List Nat :=
  (List.insertionSort (keyLe Prod.snd) xs.enum).map Prod.fst

/-- A beam as returned per sentence by `rnn_inference.beam_search`: a list of
(token sequence, score) pairs. -/
abbrev Beam := List (List Nat × ℚ)

/-- Splitting a list into consecutive chunks of `n` elements, the last chunk
possibly shorter.  Models the slicing of the length-sorted maxibatch into
minibatches (and, at the file level, of the input stream into maxibatches). -/
def chunks {γ : Type} : Nat → List γ → List (List γ)
  | _, [] => []
  | 0, _ :: _ => []
  | n + 1, x :: xs => (x :: xs.take n) :: chunks (n + 1) (xs.drop n)
termination_by n l => l.length
decreasing_by simp [List.length_drop]; omega

section Pipeline

variable {α β : Type} (slen : α → Nat) (malformed : α → Bool)
  (tr : α → Beam) (s2w : List Nat → β)

/-- Modelled from the spec: `util.read_all_lines` (not part of the analysed
source) raises a `DataFormatError` on malformed input, otherwise sorts the
maxibatch by sentence length ascending, slices the sorted buffer into
minibatches of `minibatch_size` sentences, and returns them together with the
permutation `idxs` such that `sorted[i] = original[idxs[i]]`.  Sentences are an
abstract type `α` with length function `slen`; malformedness (a wrong factor
count in the real system) is the abstract predicate `malformed`. -/
def read_all_lines (maxibatch : List α) (minibatch_size : Nat) :
    Except Unit (List (List α) × List Nat) :=
  if maxibatch.any malformed then Except.error () else
  let sorted := List.insertionSort (keyLe fun p => slen p.2) maxibatch.enum
  Except.ok (chunks minibatch_size (sorted.map Prod.snd), sorted.map Prod.fst)

/-- One output line written by `translate_maxibatch`: either a 1-best
translation line, or an n-best line `"<num> ||| <translation> ||| <cost>"`
(kept structured; `util.seq2words` is the abstract `s2w`). -/
inductive OutLine (β : Type) where
  | best (translation : β)
  | nbest (num : Nat) (translation : β) (cost : ℚ)
deriving DecidableEq

/-- `translate_maxibatch` from `translate_file`: sort the maxibatch by length
into minibatches (exiting with status 1 on a data-format error), beam-search
each minibatch (`rnn_inference.beam_search` returns one beam per sentence,
modelled by the abstract per-sentence `tr`), concatenate the beams, restore the
original order with `tmp[idxs.argsort()]`, and write one line (1-best) or one
line per hypothesis (n-best) for each sentence. -/
def translate_maxibatch (nbest : Bool) (minibatch_size : Nat)
    (maxibatch : List α) (num_prev_translated : Nat) : Except Nat (List (OutLine β)) :=
  match read_all_lines slen malformed maxibatch minibatch_size with
  | Except.error _ => Except.error 1
  | Except.ok (minibatches, idxs) =>
    let beams := (minibatches.map (fun mb => mb.map tr)).flatten
    let ordered_beams := (argsort idxs).map (fun k => beams.getD k [])
    Except.ok ((ordered_beams.enum.map (fun ib =>
      if nbest then
        ib.2.map (fun sc => OutLine.nbest (num_prev_translated + ib.1) (s2w sc.1) sc.2)
      else
        [OutLine.best (s2w (ib.2.headD ([], 0)).1)])).flatten)

/-- Outcome of a `translate_file` run: normal completion with the written
lines and the final translated-sentence counter, or process exit (via
`sys.exit`) with the lines written before the exit and the exit code. -/
inductive RunResult (β : Type) where
  | finished (out : List (OutLine β)) (num_translated : Nat)
  | exited (out : List (OutLine β)) (code : Nat)
deriving DecidableEq

/-- Prefixing already-written output lines onto the outcome of the rest of the
run. -/
def RunResult.prepend {β : Type} (out : List (OutLine β)) : RunResult β → RunResult β
  | RunResult.finished o n => RunResult.finished (out ++ o) n
  | RunResult.exited o c => RunResult.exited (out ++ o) c

/-- The `while True` read loop of `translate_file`: read one line at a time
into `maxibatch`; at end of input translate any non-empty remainder and stop;
when the buffer reaches exactly `maxibatch_size * minibatch_size` lines,
translate it and reset it to empty. -/
def translate_loop (nbest : Bool) (minibatch_size maxibatch_size : Nat) :
    List α → List α → Nat → RunResult β
  | [], maxibatch, num_translated =>
    if 0 < maxibatch.length then
      match translate_maxibatch slen malformed tr s2w nbest minibatch_size
          maxibatch num_translated with
      | Except.error c => RunResult.exited [] c
      | Except.ok out => RunResult.finished out (num_translated + maxibatch.length)
    else RunResult.finished [] num_translated
  | line :: rest, maxibatch, num_translated =>
    let mb := maxibatch ++ [line]
    if mb.length = maxibatch_size * minibatch_size then
      match translate_maxibatch slen malformed tr s2w nbest minibatch_size
          mb num_translated with
      | Except.error c => RunResult.exited [] c
      | Except.ok out =>
        RunResult.prepend out
          (translate_loop nbest minibatch_size maxibatch_size rest []
            (num_translated + mb.length))
    else translate_loop nbest minibatch_size maxibatch_size rest mb num_translated

/-- `translate_file`: run the read loop from an empty buffer and a zero
translated-sentence counter. -/
def translate_file (nbest : Bool) (minibatch_size maxibatch_size : Nat)
    (input : List α) : RunResult β :=
  translate_loop slen malformed tr s2w nbest minibatch_size maxibatch_size input [] 0

/-- Specification-side description of the maxibatch boundary behaviour: the
input stream is cut into maxibatches of exactly
`maxibatch_size * minibatch_size` lines (the last one possibly shorter) and
each is translated in turn, threading the translated-sentence counter. -/
def spec_maxibatchRun (nbest : Bool) (minibatch_size : Nat) :
    List (List α) → Nat → RunResult β
  | [], num_translated => RunResult.finished [] num_translated
  | mb :: rest, num_translated =>
    match translate_maxibatch slen malformed tr s2w nbest minibatch_size
        mb num_translated with
    | Except.error c => RunResult.exited [] c
    | Except.ok out =>
      RunResult.prepend out
        (spec_maxibatchRun nbest minibatch_size rest (num_translated + mb.length))

end Pipeline

/-- The cost field printed on an n-best output line (0 for a 1-best line,
which prints no cost). -/
def outCost {β : Type} : OutLine β → ℚ
  | OutLine.best _ => 0
  | OutLine.nbest _ _ c => c

/-- Modelled from the spec: at every beam-search expansion step the ensemble
step score of a candidate token is the sum of the log-probabilities reported
by every configured scorer for that token, each evaluated on its own hidden
state (`rnn_inference.beam_search` is not part of the analysed source). -/
def ensembleStepScore (scorerLogProbs : List ℚ) : ℚ := scorerLogProbs.sum

/-- Modelled from the spec: the beam-search cost of a hypothesis accumulates
one negated step score per emitted token (lower is better). -/
def accumCost (stepScores : List ℚ) : ℚ := (stepScores.map (fun p => -p)).sum

/-- The default length-normalization exponent of `InferenceModelSet.beam_search`. -/
def beam_search_default_normalization_alpha : ℚ := 0

/-- The default length-normalization exponent of `translate_file`. -/
def translate_file_default_normalization_alpha : ℚ := 1

/-- Modelled from the spec: length normalization divides a finished
hypothesis's cost by its length raised to the exponent `alpha`.  The exponents
the pipeline uses (the two defaults 0.0 and 1.0) are integers, so
exponentiation is modelled exactly by the integer power of `alpha`'s
numerator. -/
def normalizedCost (alpha : ℚ) (cost : ℚ) (len : Nat) : ℚ :=
  cost / (len : ℚ) ^ alpha.num

/-- Modelled from the spec: one beam-search hypothesis: emitted target tokens,
accumulated cost, and the ACTIVE/FINISHED flag. -/
structure Hyp where
  toks : List Nat
  cost : ℚ
  finished : Bool
deriving DecidableEq

/-- Modelled from the spec: expansion of one hypothesis.  A FINISHED
hypothesis stays as it is, still occupying a beam slot; an ACTIVE one yields
one candidate per vocabulary token, with cost = current cost − log-probability,
transitioning to FINISHED on the end-of-sequence token. -/
def expandHyp (lp : List Nat → Nat → ℚ) (vocab : List Nat) (eos : Nat)
    (h : Hyp) : List Hyp :=
  if h.finished then [h]
  else vocab.map (fun t => Hyp.mk (h.toks ++ [t]) (h.cost - lp h.toks t) (t == eos))

/-- Modelled from the spec: one lockstep step of the BeamSearchEngine for one
sentence: expand every hypothesis and keep the `beam_size` lowest-cost
candidates, comparing raw (unnormalized) costs. -/
def beamStep (lp : List Nat → Nat → ℚ) (vocab : List Nat) (eos : Nat)
    (beam_size : Nat) (beam : List Hyp) : List Hyp :=
  (List.insertionSort (keyLe Hyp.cost)
    ((beam.map (expandHyp lp vocab eos)).flatten)).take beam_size

/-- Modelled from the spec: the search: starting from one empty ACTIVE
hypothesis, advance `n` lockstep steps (the length cap). -/
def runBeamSearch (lp : List Nat → Nat → ℚ) (vocab : List Nat) (eos : Nat)
    (beam_size : Nat) : Nat → List Hyp
  | 0 => [Hyp.mk [] 0 false]
  | n + 1 => beamStep lp vocab eos beam_size (runBeamSearch lp vocab eos beam_size n)

/-- Modelled from the spec: the returned Beam: all hypotheses surviving at the
length cap, ranked ascending by length-normalized cost. -/
def finalBeam (lp : List Nat → Nat → ℚ) (vocab : List Nat) (eos : Nat)
    (beam_size maxlen : Nat) (alpha : ℚ) : List Hyp :=
  List.insertionSort (keyLe (fun h => normalizedCost alpha h.cost h.toks.length))
    (runBeamSearch lp vocab eos beam_size maxlen)

/-- A compiled sampling plan (`rnn_inference.SampleGraph`), modelled from the
spec as remembering the scorer it was built from. -/
structure SampleGraph (M : Type) where
  model : M
deriving DecidableEq

/-- A compiled beam-search plan (`rnn_inference.BeamSearchGraph`), modelled
from the spec as the cache entry: the scorer set and the `beam_size` key. -/
structure BeamSearchGraph (M : Type) where
  models : List M
  beam_size : Nat
deriving DecidableEq

/-- `InferenceModelSet` state: the ordered scorers and the two cached plans. -/
structure InferenceModelSet (M : Type) where
  models : List M
  cached_sample_graph : Option (SampleGraph M)
  cached_beam_search_graph : Option (BeamSearchGraph M)
deriving DecidableEq

/-- `InferenceModelSet.__init__`: both plan caches start empty. -/
def InferenceModelSet.init {M : Type} (models : List M) : InferenceModelSet M :=
  InferenceModelSet.mk models none none

/-- `InferenceModelSet.sample`: sampling is not implemented for ensembles, so
only the first model is consulted; the sampling plan is built lazily once and
cached.  `sampleImpl` abstracts `rnn_inference.sample` (session, input, mask,
random seed and alignment flag are bundled into the abstract input type `ι`).
Returns `none` when the model list is empty (where `self._models[0]` would
raise). -/
def InferenceModelSet.sample {M ι Out : Type} (sampleImpl : M → ι → SampleGraph M → Out)
    (ms : InferenceModelSet M) (x : ι) : Option (Out × InferenceModelSet M) :=
  match ms.models with
  | [] => none
  | model :: _ =>
    let g := match ms.cached_sample_graph with
             | none => SampleGraph.mk model
             | some g => g
    some (sampleImpl model x g,
          InferenceModelSet.mk ms.models (some g) ms.cached_beam_search_graph)

/-- The rebuild condition of `InferenceModelSet.beam_search`: rebuild iff no
plan is cached or the cached plan's beam width differs from the request. -/
def InferenceModelSet.beamSearchNeedsRebuild {M : Type} (ms : InferenceModelSet M)
    (beam_size : Nat) : Bool :=
  match ms.cached_beam_search_graph with
  | none => true
  | some g => g.beam_size != beam_size

/-- The plan used by a `beam_search` request: the freshly built
`BeamSearchGraph(models, beam_size)` when the cache misses, the cached plan
unchanged when it matches. -/
def InferenceModelSet.beamSearchGraphFor {M : Type} (ms : InferenceModelSet M)
    (beam_size : Nat) : BeamSearchGraph M :=
  match ms.cached_beam_search_graph with
  | none => BeamSearchGraph.mk ms.models beam_size
  | some g =>
    if g.beam_size ≠ beam_size then BeamSearchGraph.mk ms.models beam_size else g

/-- `InferenceModelSet.beam_search`: pick (rebuilding if needed) the cached
plan, store it back, and run `rnn_inference.beam_search` (abstracted as
`bsImpl`) on all models with the plan. -/
def InferenceModelSet.beam_search {M ι Out : Type}
    (bsImpl : List M → ι → Nat → ℚ → BeamSearchGraph M → Out)
    (ms : InferenceModelSet M) (x : ι) (beam_size : Nat) (normalization_alpha : ℚ) :
    Out × InferenceModelSet M :=
  let g := ms.beamSearchGraphFor beam_size
  (bsImpl ms.models x beam_size normalization_alpha g,
   InferenceModelSet.mk ms.models ms.cached_sample_graph (some g))

/-- Central order-restoration fact behind `tmp[idxs.argsort()]`: if `p` is any
permutation of the enumeration of `xs` (first components are original
positions, second components the values), then indexing the value list of `p`
through the argsort of its position list restores `xs` exactly. -/
theorem argsort_restore {γ : Type} (xs : List γ) (p : List (Nat × γ))
    (hp : p.Perm xs.enum) (d : γ) :
    (argsort (p.map Prod.fst)).map (fun k => (p.map Prod.snd).getD k d) = xs := by
  have hplen : p.length = xs.length := by simpa using hp.length_eq
  have hidxperm : (p.map Prod.fst).Perm (List.range xs.length) := by
    simpa using hp.map Prod.fst
  set q := List.insertionSort (keyLe Prod.snd) (p.map Prod.fst).enum with hqdef
  have hqperm : q.Perm (p.map Prod.fst).enum := List.perm_insertionSort _ _
  have hqsorted : List.Sorted (keyLe Prod.snd) q := List.sorted_insertionSort _ _
  have hsndsorted : List.Sorted (· ≤ ·) (q.map Prod.snd) :=
    List.Pairwise.map Prod.snd (fun _ _ h => h) hqsorted
  have hsndperm : (q.map Prod.snd).Perm (List.range xs.length) := by
    refine (hqperm.map Prod.snd).trans ?_
    simpa using hidxperm
  have hsndeq : q.map Prod.snd = List.range xs.length :=
    List.eq_of_perm_of_sorted hsndperm hsndsorted (List.sorted_le_range xs.length)
  have hqlen : q.length = xs.length := by
    rw [hqdef, List.length_insertionSort, List.enum_length, List.length_map, hplen]
  have hgoal : (argsort (p.map Prod.fst)).map (fun k => (p.map Prod.snd).getD k d)
      = q.map (fun e => (p.map Prod.snd).getD e.1 d) := by
    rw [argsort, ← hqdef, List.map_map]
    rfl
  rw [hgoal]
  apply List.ext_get?
  intro j
  by_cases hj : j < xs.length
  · have hjq : j < q.length := by rwa [hqlen]
    set e := q.get ⟨j, hjq⟩ with hedef
    have he2 : e.2 = j := by
      have hcong := congrArg (fun l => l.get? j) hsndeq
      simp only [List.get?_map, List.get?_eq_get hjq, ← hedef,
        List.get?_range hj, Option.map_some] at hcong
      exact Option.some.inj hcong
    have hmemq : e ∈ q := List.get_mem q j hjq
    have hmemenum : e ∈ (p.map Prod.fst).enum := hqperm.subset hmemq
    have hidxget : (p.map Prod.fst)[e.1]? = some j := by
      rw [← he2]
      exact List.mem_enum_iff_getElem?.mp hmemenum
    rw [List.getElem?_map] at hidxget
    obtain ⟨pe, hpeget, hpe1⟩ : ∃ pe : Nat × γ, p[e.1]? = some pe ∧ pe.1 = j := by
      simpa [Option.map_eq_map, Option.map_eq_some'] using hidxget
    have hpemem : pe ∈ p := by
      rcases List.getElem?_eq_some.mp hpeget with ⟨h, hv⟩
      exact hv ▸ List.getElem_mem h
    have hxsget : xs[j]? = some pe.2 := by
      rw [← hpe1]
      exact List.mem_enum_iff_getElem?.mp (hp.subset hpemem)
    have he1lt : e.1 < p.length := by
      rcases List.getElem?_eq_some.mp hpeget with ⟨h, _⟩
      exact h
    have hgetD : (p.map Prod.snd).getD e.1 d = pe.2 := by
      have he1lt' : e.1 < (p.map Prod.snd).length := by simpa using he1lt
      rw [List.getD_eq_getElem _ d he1lt', List.getElem_map]
      have : p[e.1] = pe := by
        rcases List.getElem?_eq_some.mp hpeget with ⟨h, hv⟩
        exact hv
      rw [this]
    rw [List.get?_map, List.get?_eq_get hjq]
    show Option.map (fun e => (List.map Prod.snd p).getD e.1 d) (some e) = xs.get? j
    rw [Option.map_some', hgetD, List.get?_eq_getElem?, hxsget]
  · have hlen1 : (q.map (fun e => (p.map Prod.snd).getD e.1 d)).length = xs.length := by
      simp [hqlen]
    rw [List.get?_eq_none.mpr (by omega : xs.length ≤ j)]
    rw [List.get?_eq_none.mpr (by rw [hlen1]; omega)]

theorem chunks_nil {γ : Type} (n : Nat) : chunks n ([] : List γ) = [] := by
  cases n <;> simp [chunks]

theorem chunks_cons {γ : Type} (n : Nat) (x : γ) (xs : List γ) :
    chunks (n + 1) (x :: xs) = (x :: xs.take n) :: chunks (n + 1) (xs.drop n) := by
  rw [chunks]

theorem chunks_flatten {γ : Type} : ∀ (n : Nat) (l : List γ), 1 ≤ n →
    (chunks n l).flatten = l
  | _, [], _ => by simp [chunks_nil]
  | 0, _ :: _, h => by omega
  | n + 1, x :: xs, _ => by
    rw [chunks_cons, List.flatten_cons, chunks_flatten (n + 1) (xs.drop n) (by omega)]
    simp [List.cons_append, List.take_append_drop]
termination_by n l _ => l.length
decreasing_by simp [List.length_drop]; omega

theorem chunks_mem_bounds {γ : Type} : ∀ (n : Nat) (l : List γ) (mb : List γ),
    mb ∈ chunks n l → mb.length ≤ n ∧ mb ≠ []
  | _, [], mb => by simp [chunks_nil]
  | 0, _ :: _, mb => by simp [chunks]
  | n + 1, x :: xs, mb => by
    rw [chunks_cons]
    intro hmem
    rcases List.mem_cons.mp hmem with h | h
    · subst h
      refine ⟨?_, by simp⟩
      simp only [List.length_cons]
      have := List.length_take_le n xs
      omega
    · exact chunks_mem_bounds (n + 1) (xs.drop n) mb h
termination_by n l _ => l.length
decreasing_by simp [List.length_drop]; omega

theorem chunks_eq_single {γ : Type} (n : Nat) (l : List γ)
    (h0 : 0 < l.length) (hn : l.length ≤ n) : chunks n l = [l] := by
  match n, l with
  | _, [] => simp at h0
  | 0, x :: xs => rw [List.length_cons] at hn; omega
  | n + 1, x :: xs =>
    rw [chunks_cons]
    have hxs : xs.length ≤ n := by rw [List.length_cons] at hn; omega
    rw [List.take_of_length_le hxs, List.drop_eq_nil_of_le hxs, chunks_nil]

theorem chunks_append_full {γ : Type} (n : Nat) (l₁ l₂ : List γ)
    (hlen : l₁.length = n) (hn : 1 ≤ n) :
    chunks n (l₁ ++ l₂) = l₁ :: chunks n l₂ := by
  match n, l₁ with
  | _, [] => simp at hlen; omega
  | 0, x :: xs => omega
  | n + 1, x :: xs =>
    have hxs : xs.length = n := by simp at hlen; omega
    rw [List.cons_append, chunks_cons, List.take_left' hxs, List.drop_left' hxs]

theorem ordered_beams_restore {α : Type} (slen : α → Nat) (tr : α → Beam)
    (mb : List α) (mini : Nat) (hmini : 1 ≤ mini) :
    (argsort ((List.insertionSort (keyLe fun p => slen p.2) mb.enum).map Prod.fst)).map
      (fun k => (((chunks mini
        ((List.insertionSort (keyLe fun p => slen p.2) mb.enum).map Prod.snd)).map
          (fun m => m.map tr)).flatten).getD k []) = mb.map tr := by
  set sorted := List.insertionSort (keyLe fun p => slen p.2) mb.enum with hs
  have hbeams : ((chunks mini (sorted.map Prod.snd)).map (fun m => m.map tr)).flatten
      = (sorted.map (fun e => (e.1, tr e.2))).map Prod.snd := by
    rw [← List.map_flatten, chunks_flatten mini _ hmini]
    simp [List.map_map, Function.comp]
  have hidxs : sorted.map Prod.fst = (sorted.map (fun e => (e.1, tr e.2))).map Prod.fst := by
    simp [List.map_map, Function.comp]
  rw [hbeams, hidxs]
  apply argsort_restore
  have hperm : sorted.Perm mb.enum := List.perm_insertionSort _ _
  refine (hperm.map (fun e => (e.1, tr e.2))).trans ?_
  rw [List.enum_map]
  exact List.Perm.of_eq rfl

theorem flatten_singletons {γ δ : Type} (f : γ → δ) (l : List γ) :
    (l.map (fun x => [f x])).flatten = l.map f := by
  induction l with
  | nil => rfl
  | cons x xs ih => simp only [List.map_cons, List.flatten_cons, ih, List.singleton_append]

theorem enum_map_snd_comp {γ δ : Type} (l : List γ) (g : γ → δ) :
    l.enum.map (fun e => g e.2) = l.map g := by
  have h : (fun e : Nat × γ => g e.2) = g ∘ Prod.snd := rfl
  rw [h, ← List.map_map, List.enum_map_snd]

theorem translate_maxibatch_ok {α β : Type} (slen : α → Nat) (malformed : α → Bool)
    (tr : α → Beam) (s2w : List Nat → β) (nbest : Bool) (mini : Nat)
    (mb : List α) (num : Nat)
    (hmal : mb.any malformed = false) (hmini : 1 ≤ mini) :
    translate_maxibatch slen malformed tr s2w nbest mini mb num =
      Except.ok (((mb.map tr).enum.map (fun ib =>
        if nbest then
          ib.2.map (fun sc => OutLine.nbest (num + ib.1) (s2w sc.1) sc.2)
        else
          [OutLine.best (s2w (ib.2.headD ([], 0)).1)])).flatten) := by
  have hrestore := ordered_beams_restore slen tr mb mini hmini
  unfold translate_maxibatch read_all_lines
  rw [hmal]
  simp only [Bool.false_eq_true, if_false]
  rw [hrestore]

theorem translate_maxibatch_onebest {α β : Type} (slen : α → Nat) (malformed : α → Bool)
    (tr : α → Beam) (s2w : List Nat → β) (mini : Nat) (mb : List α) (num : Nat)
    (hmal : mb.any malformed = false) (hmini : 1 ≤ mini) :
    translate_maxibatch slen malformed tr s2w false mini mb num =
      Except.ok (mb.map (fun s => OutLine.best (s2w ((tr s).headD ([], 0)).1))) := by
  rw [translate_maxibatch_ok slen malformed tr s2w false mini mb num hmal hmini]
  simp only [Bool.false_eq_true, if_false]
  rw [flatten_singletons (fun ib : Nat × Beam => OutLine.best (s2w ((ib.2).headD ([], 0)).1))]
  refine congrArg Except.ok ?_
  calc List.map (fun ib : Nat × Beam => OutLine.best (s2w (ib.2.headD ([], 0)).1))
        (mb.map tr).enum
      = ((mb.map tr).enum.map Prod.snd).map
          (fun b => OutLine.best (s2w (b.headD ([], 0)).1)) := by
        rw [List.map_map]; rfl
    _ = (mb.map tr).map (fun b => OutLine.best (s2w (b.headD ([], 0)).1)) := by
        rw [List.enum_map_snd]
    _ = mb.map (fun s => OutLine.best (s2w ((tr s).headD ([], 0)).1)) := by
        rw [List.map_map]; rfl

theorem translate_loop_onebest {α β : Type} (slen : α → Nat) (malformed : α → Bool)
    (tr : α → Beam) (s2w : List Nat → β) (mini maxi : Nat) (hmini : 1 ≤ mini) :
    ∀ (input mb : List α) (num : Nat),
      (∀ x ∈ mb ++ input, malformed x = false) →
      translate_loop slen malformed tr s2w false mini maxi input mb num =
        RunResult.finished
          ((mb ++ input).map (fun s => OutLine.best (s2w ((tr s).headD ([], 0)).1)))
          (num + (mb ++ input).length) := by
  intro input
  induction input with
  | nil =>
    intro mb num hm
    have hmal : mb.any malformed = false := by
      rw [List.any_eq_false]
      intro x hx
      simp [hm x (by simpa using hx)]
    rw [translate_loop]
    by_cases hmb : 0 < mb.length
    · rw [if_pos hmb, translate_maxibatch_onebest slen malformed tr s2w mini mb num hmal hmini]
      simp
    · have : mb = [] := by
        cases mb with
        | nil => rfl
        | cons a l => simp at hmb
      subst this
      simp
  | cons line rest ih =>
    intro mb num hm
    rw [translate_loop]
    by_cases hcap : (mb ++ [line]).length = maxi * mini
    · rw [if_pos hcap]
      have hmal : (mb ++ [line]).any malformed = false := by
        rw [List.any_eq_false]
        intro x hx
        have hxmem : x ∈ mb ++ line :: rest := by
          rcases List.mem_append.mp hx with h | h
          · exact List.mem_append.mpr (Or.inl h)
          · simp at h
            subst h
            exact List.mem_append.mpr (Or.inr (List.mem_cons_self _ _))
        simp [hm x hxmem]
      rw [translate_maxibatch_onebest slen malformed tr s2w mini _ num hmal hmini]
      rw [ih [] (num + (mb ++ [line]).length) (by
        intro x hx
        refine hm x ?_
        simp at hx
        exact List.mem_append.mpr (Or.inr (List.mem_cons_of_mem _ hx)))]
      simp only [RunResult.prepend, List.nil_append, ← List.map_append, List.append_assoc,
        List.singleton_append]
      congr 1
      simp only [List.length_append, List.length_cons, List.length_singleton, List.length_nil]
      omega
    · rw [if_neg hcap]
      rw [ih (mb ++ [line]) num (by
        intro x hx
        refine hm x ?_
        rcases List.mem_append.mp hx with h | h
        · rcases List.mem_append.mp h with h' | h'
          · exact List.mem_append.mpr (Or.inl h')
          · simp at h'
            subst h'
            exact List.mem_append.mpr (Or.inr (List.mem_cons_self _ _))
        · exact List.mem_append.mpr (Or.inr (List.mem_cons_of_mem _ h)))]
      rw [show (mb ++ [line]) ++ rest = mb ++ line :: rest by simp]

/-- C1: for a non-empty, well-formed input stream (no malformed line, and the
scorer returns a non-empty beam for every sentence), `translate_file` in
1-best mode finishes normally, writes exactly one output line per input line,
and output line `i` is the 1-best translation of input line `i`: the
length-sorted minibatch beams are restored to original input order by
`argsort(idxs)` before any line is written. -/
theorem c1_onebest_order_preserved {α β : Type} (slen : α → Nat) (malformed : α → Bool)
    (tr : α → Beam) (s2w : List Nat → β) (mini maxi : Nat) (input : List α)
    (hmini : 1 ≤ mini) (hne : input ≠ [])
    (hmal : ∀ x ∈ input, malformed x = false) (htr : ∀ s, tr s ≠ []) :
    translate_file slen malformed tr s2w false mini maxi input =
      RunResult.finished
        (input.map (fun s => OutLine.best (s2w ((tr s).headD ([], 0)).1)))
        input.length ∧
    (input.map (fun s => OutLine.best (s2w ((tr s).headD ([], 0)).1))).length
      = input.length := by
  constructor
  · rw [translate_file]
    rw [translate_loop_onebest slen malformed tr s2w mini maxi hmini input [] 0
      (by simpa using hmal)]
    simp
  · simp

/-- Witness for C1 at a concrete input: two sentences, identity scorer. -/
theorem c1_onebest_order_preserved_witness :
    translate_file (fun n : Nat => n) (fun _ => false) (fun n => [([n], (0 : ℚ))])
        (fun t => t) false 1 1 [5, 3] =
      RunResult.finished [OutLine.best [5], OutLine.best [3]] 2 := by
  have h := c1_onebest_order_preserved (fun n : Nat => n) (fun _ => false)
    (fun n => [([n], (0 : ℚ))]) (fun t => t) 1 1 [5, 3]
    (by decide) (by decide) (by intro x _; rfl) (by intro s; simp)
  exact h.1

/-- C10: on an empty input stream `translate_file` writes no output lines,
terminates normally with the translated-sentence counter equal to 0, and the
result does not depend on the scorer at all (beam search and the
maxibatch-translation step are never invoked). -/
theorem c10_empty_input {α β : Type} (slen : α → Nat) (malformed : α → Bool)
    (tr : α → Beam) (s2w : List Nat → β) (nbest : Bool) (mini maxi : Nat) :
    translate_file slen malformed tr s2w nbest mini maxi ([] : List α) =
      RunResult.finished [] 0 ∧
    ∀ (slen' : α → Nat) (malformed' : α → Bool) (tr' : α → Beam),
      translate_file slen' malformed' tr' s2w nbest mini maxi ([] : List α) =
        translate_file slen malformed tr s2w nbest mini maxi ([] : List α) := by
  constructor
  · rw [translate_file, translate_loop]
    simp
  · intro slen' malformed' tr'
    simp [translate_file, translate_loop]

theorem translate_loop_chunks {α β : Type} (slen : α → Nat) (malformed : α → Bool)
    (tr : α → Beam) (s2w : List Nat → β) (nbest : Bool) (mini maxi : Nat)
    (hcap : 1 ≤ maxi * mini) :
    ∀ (input mb : List α) (num : Nat), mb.length < maxi * mini →
      translate_loop slen malformed tr s2w nbest mini maxi input mb num =
        spec_maxibatchRun slen malformed tr s2w nbest mini
          (chunks (maxi * mini) (mb ++ input)) num := by
  intro input
  induction input with
  | nil =>
    intro mb num hmb
    rw [translate_loop, List.append_nil]
    by_cases h0 : 0 < mb.length
    · rw [if_pos h0, chunks_eq_single _ _ h0 (le_of_lt hmb), spec_maxibatchRun]
      cases htm : translate_maxibatch slen malformed tr s2w nbest mini mb num with
      | error c => rfl
      | ok out => rw [spec_maxibatchRun]; simp [RunResult.prepend]
    · rw [if_neg h0]
      have hmbnil : mb = [] := by
        cases mb with
        | nil => rfl
        | cons a l => simp at h0
      subst hmbnil
      rw [chunks_nil, spec_maxibatchRun]
  | cons line rest ih =>
    intro mb num hmb
    rw [translate_loop]
    by_cases hfull : (mb ++ [line]).length = maxi * mini
    · rw [if_pos hfull]
      have hsplit : chunks (maxi * mini) (mb ++ line :: rest)
          = (mb ++ [line]) :: chunks (maxi * mini) rest := by
        rw [show mb ++ line :: rest = (mb ++ [line]) ++ rest by simp]
        exact chunks_append_full _ _ _ hfull hcap
      rw [hsplit, spec_maxibatchRun]
      cases htm : translate_maxibatch slen malformed tr s2w nbest mini (mb ++ [line]) num with
      | error c => rfl
      | ok out =>
        rw [ih [] (num + (mb ++ [line]).length) (by simp only [List.length_nil]; omega)]
        simp only [List.nil_append]
    · rw [if_neg hfull]
      have hlt : (mb ++ [line]).length < maxi * mini := by
        have hle : (mb ++ [line]).length ≤ maxi * mini := by
          simp only [List.length_append, List.length_singleton]
          omega
        omega
      rw [ih (mb ++ [line]) num hlt]
      rw [show (mb ++ [line]) ++ rest = mb ++ line :: rest by simp]

/-- C6: `translate_file` accumulates lines into a maxibatch until end-of-input
or exactly `maxibatch_size * minibatch_size` lines; a buffer reaching exactly
that size is translated and reset without requiring end-of-input, and a
non-empty partial maxibatch at end-of-input is still translated.  The run is
therefore exactly the chunk-by-chunk translation of the input, every chunk is
non-empty and at most the cap, and concatenating the chunks gives back every
input line exactly once, in order. -/
theorem c6_maxibatch_accumulation {α β : Type} (slen : α → Nat) (malformed : α → Bool)
    (tr : α → Beam) (s2w : List Nat → β) (nbest : Bool) (mini maxi : Nat)
    (input : List α) (hmini : 1 ≤ mini) (hmaxi : 1 ≤ maxi) :
    translate_file slen malformed tr s2w nbest mini maxi input =
      spec_maxibatchRun slen malformed tr s2w nbest mini
        (chunks (maxi * mini) input) 0 ∧
    (chunks (maxi * mini) input).flatten = input ∧
    (∀ mb ∈ chunks (maxi * mini) input, mb.length ≤ maxi * mini ∧ mb ≠ []) := by
  have hcap : 1 ≤ maxi * mini := Nat.mul_pos hmaxi hmini
  refine ⟨?_, chunks_flatten _ _ hcap, fun mb hmb => chunks_mem_bounds _ _ mb hmb⟩
  rw [translate_file]
  rw [translate_loop_chunks slen malformed tr s2w nbest mini maxi hcap input [] 0
    (by simp only [List.length_nil]; omega)]
  rfl

/-- Witness for C6 at a concrete input: cap = 2 × 1, three input lines, so one
full maxibatch is flushed mid-stream and a one-line partial one at EOF. -/
theorem c6_maxibatch_accumulation_witness :
    translate_file (fun n : Nat => n) (fun _ => false) (fun n => [([n], (0 : ℚ))])
        (fun t => t) false 1 2 [0, 1, 2] =
      spec_maxibatchRun (fun n : Nat => n) (fun _ => false) (fun n => [([n], (0 : ℚ))])
        (fun t => t) false 1 (chunks 2 [0, 1, 2]) 0 ∧
    (chunks 2 [0, 1, 2]).flatten = [0, 1, 2] := by
  have h := c6_maxibatch_accumulation (fun n : Nat => n) (fun _ => false)
    (fun n => [([n], (0 : ℚ))]) (fun t => t) false 1 2 [0, 1, 2] (by decide) (by decide)
  exact ⟨h.1, h.2.1⟩

theorem translate_maxibatch_error_code {α β : Type} (slen : α → Nat) (malformed : α → Bool)
    (tr : α → Beam) (s2w : List Nat → β) (nbest : Bool) (mini : Nat)
    (mb : List α) (num : Nat) (c : Nat)
    (h : translate_maxibatch slen malformed tr s2w nbest mini mb num
      = (Except.error c : Except Nat (List (OutLine β)))) : c = 1 := by
  unfold translate_maxibatch at h
  cases hr : read_all_lines slen malformed mb mini with
  | error u =>
    rw [hr] at h
    exact (Except.error.inj h).symm
  | ok v =>
    rw [hr] at h
    cases v with
    | mk minibatches idxs => simp at h

/-- C7: a data-format error while preparing a maxibatch is fatal: the
maxibatch step exits with status 1 emitting no translation lines (not even
partial ones), any abnormal exit of the whole run carries exit status 1, and
a malformed maxibatch in flight at end-of-input terminates the run with no
lines written for it and no retry. -/
theorem c7_dataformat_error_fatal {α β : Type} (slen : α → Nat) (malformed : α → Bool)
    (tr : α → Beam) (s2w : List Nat → β) (nbest : Bool) (mini maxi : Nat) :
    (∀ (mb : List α) (num : Nat), mb.any malformed = true →
      translate_maxibatch slen malformed tr s2w nbest mini mb num
        = (Except.error 1 : Except Nat (List (OutLine β)))) ∧
    (∀ (input mb : List α) (num : Nat) (out : List (OutLine β)) (c : Nat),
      translate_loop slen malformed tr s2w nbest mini maxi input mb num
        = RunResult.exited out c → c = 1) ∧
    (∀ (mb : List α) (num : Nat), mb ≠ [] → mb.any malformed = true →
      translate_loop slen malformed tr s2w nbest mini maxi [] mb num
        = (RunResult.exited [] 1 : RunResult β)) := by
  have herr : ∀ (mb : List α) (num : Nat), mb.any malformed = true →
      translate_maxibatch slen malformed tr s2w nbest mini mb num
        = (Except.error 1 : Except Nat (List (OutLine β))) := by
    intro mb num hmal
    unfold translate_maxibatch read_all_lines
    rw [hmal]
    rfl
  refine ⟨herr, ?_, ?_⟩
  · intro input
    induction input with
    | nil =>
      intro mb num out c h
      rw [translate_loop] at h
      by_cases h0 : 0 < mb.length
      · rw [if_pos h0] at h
        cases htm : translate_maxibatch slen malformed tr s2w nbest mini mb num with
        | error c' =>
          rw [htm] at h
          have hc := (RunResult.exited.inj h).2
          have := translate_maxibatch_error_code slen malformed tr s2w nbest mini mb num c' htm
          omega
        | ok o =>
          rw [htm] at h
          exact absurd h (by simp)
      · rw [if_neg h0] at h
        exact absurd h (by simp)
    | cons line rest ih =>
      intro mb num out c h
      rw [translate_loop] at h
      by_cases hfull : (mb ++ [line]).length = maxi * mini
      · rw [if_pos hfull] at h
        cases htm : translate_maxibatch slen malformed tr s2w nbest mini (mb ++ [line]) num with
        | error c' =>
          rw [htm] at h
          have hc := (RunResult.exited.inj h).2
          have := translate_maxibatch_error_code slen malformed tr s2w nbest mini
            (mb ++ [line]) num c' htm
          omega
        | ok o =>
          rw [htm] at h
          cases hrec : translate_loop slen malformed tr s2w nbest mini maxi rest []
              (num + (mb ++ [line]).length) with
          | finished o' n' =>
            rw [hrec] at h
            exact absurd h (by simp [RunResult.prepend])
          | exited o' c' =>
            rw [hrec] at h
            simp only [RunResult.prepend, RunResult.exited.injEq] at h
            have := ih [] (num + (mb ++ [line]).length) o' c' hrec
            omega
      · rw [if_neg hfull] at h
        exact ih (mb ++ [line]) num out c h
  · intro mb num hne hmal
    rw [translate_loop]
    rw [if_pos (by cases mb with | nil => exact absurd rfl hne | cons a l => simp)]
    rw [herr mb num hmal]

/-- Witness for C7 at a concrete input: the single line `7` is malformed, the
maxibatch step errors with status 1 and the run exits with no output. -/
theorem c7_dataformat_error_fatal_witness :
    translate_maxibatch (fun n : Nat => n) (fun n => n == 7) (fun n => [([n], (0 : ℚ))])
        (fun t : List Nat => t) false 1 [7] 0 = Except.error 1 ∧
    translate_loop (fun n : Nat => n) (fun n => n == 7) (fun n => [([n], (0 : ℚ))])
        (fun t : List Nat => t) false 1 1 [] [7] 0 = RunResult.exited [] 1 := by
  have h := c7_dataformat_error_fatal (fun n : Nat => n) (fun n => n == 7)
    (fun n => [([n], (0 : ℚ))]) (fun t : List Nat => t) false 1 1
  exact ⟨h.1 [7] 0 (by decide), h.2.2 [7] 0 (by decide) (by decide)⟩

/-- C8: in n-best mode every hypothesis of every sentence's beam is emitted as
a structured line (global index, surface text, cost), where the global index is
the prior-maxibatch count plus the sentence's position in original input order
(the restore permutation is applied before indexing, so all lines of one
sentence share one index), and the lines of a sentence appear in its beam's
order — ascending in cost whenever the beam is cost-sorted. -/
theorem c8_nbest_lines {α β : Type} (slen : α → Nat) (malformed : α → Bool)
    (tr : α → Beam) (s2w : List Nat → β) (mini : Nat) (mb : List α) (num : Nat)
    (hmal : ∀ x ∈ mb, malformed x = false) (hmini : 1 ≤ mini) :
    translate_maxibatch slen malformed tr s2w true mini mb num =
      Except.ok ((mb.enum.map (fun js =>
        (tr js.2).map (fun sc => OutLine.nbest (num + js.1) (s2w sc.1) sc.2))).flatten) ∧
    ∀ (j : Nat) (s : α), mb.get? j = some s →
      List.Sorted (keyLe Prod.snd) (tr s) →
      List.Sorted (keyLe (fun ol : OutLine β => outCost ol))
        ((tr s).map (fun sc => OutLine.nbest (num + j) (s2w sc.1) sc.2)) := by
  constructor
  · have hmal' : mb.any malformed = false := by
      rw [List.any_eq_false]
      intro x hx
      simp [hmal x hx]
    rw [translate_maxibatch_ok slen malformed tr s2w true mini mb num hmal' hmini]
    refine congrArg Except.ok (congrArg List.flatten ?_)
    rw [List.enum_map, List.map_map]
    rfl
  · intro j s hget hsorted
    exact List.Pairwise.map _ (fun a b h => h) hsorted

/-- Witness for C8 at a concrete input: two sentences whose lengths make the
internal sort swap them, two hypotheses each; output restores input order,
blocks share one index apiece, costs ascend within each block. -/
theorem c8_nbest_lines_witness :
    translate_maxibatch (fun n : Nat => n) (fun _ => false)
        (fun n => [([n], (0 : ℚ)), ([n + 1], (1 : ℚ))]) (fun t => t) true 1 [9, 4] 5 =
      Except.ok [OutLine.nbest 5 [9] 0, OutLine.nbest 5 [10] 1,
        OutLine.nbest 6 [4] 0, OutLine.nbest 6 [5] 1] := by
  have h := c8_nbest_lines (fun n : Nat => n) (fun _ => false)
    (fun n => [([n], (0 : ℚ)), ([n + 1], (1 : ℚ))]) (fun t => t) 1 [9, 4] 5
    (by intro x _; rfl) (by decide)
  rw [h.1]
  rfl

/-- C2: the ensemble step score is the sum of the per-scorer log-probabilities,
so with two identical scorers the step score — and hence the accumulated
beam-search cost after any number of steps — is exactly twice the
single-scorer value. -/
theorem c2_ensemble_sum_doubling (ps : List ℚ) (p : ℚ) :
    ensembleStepScore [p, p] = 2 * ensembleStepScore [p] ∧
    accumCost (ps.map (fun q => ensembleStepScore [q, q])) =
      2 * accumCost (ps.map (fun q => ensembleStepScore [q])) := by
  constructor
  · simp only [ensembleStepScore, List.sum_cons, List.sum_nil]
    ring
  · induction ps with
    | nil => simp [accumCost]
    | cons q qs ih =>
      simp only [accumCost, ensembleStepScore, List.map_cons, List.sum_cons,
        List.sum_nil] at ih ⊢
      linarith

theorem expandHyp_ne_nil (lp : List Nat → Nat → ℚ) (vocab : List Nat) (eos : Nat)
    (h : Hyp) (hv : vocab ≠ []) : expandHyp lp vocab eos h ≠ [] := by
  unfold expandHyp
  split
  · simp
  · simpa using hv

theorem length_le_length_flatten {γ : Type} (L : List (List γ))
    (h : ∀ l ∈ L, l ≠ []) : L.length ≤ L.flatten.length := by
  induction L with
  | nil => simp
  | cons a as ih =>
    simp only [List.flatten_cons, List.length_append, List.length_cons]
    have ha : 1 ≤ a.length := by
      have h0 := h a (List.mem_cons_self _ _)
      cases a with
      | nil => exact absurd rfl h0
      | cons x xs => simp
    have has := ih (fun l hl => h l (List.mem_cons_of_mem _ hl))
    omega

theorem runBeamSearch_length_le (lp : List Nat → Nat → ℚ) (vocab : List Nat)
    (eos : Nat) (beam_size : Nat) (hbs : 1 ≤ beam_size) :
    ∀ n, (runBeamSearch lp vocab eos beam_size n).length ≤ beam_size := by
  intro n
  cases n with
  | zero => simpa [runBeamSearch] using hbs
  | succ m =>
    rw [runBeamSearch, beamStep]
    simp [List.length_take]

theorem runBeamSearch_length_eq (lp : List Nat → Nat → ℚ) (vocab : List Nat)
    (eos : Nat) (beam_size : Nat) (hbs : 1 ≤ beam_size) (hv : beam_size ≤ vocab.length) :
    ∀ n, 1 ≤ n → (runBeamSearch lp vocab eos beam_size n).length = beam_size := by
  intro n
  induction n with
  | zero => omega
  | succ m ih =>
    intro _
    have hvne : vocab ≠ [] := by
      intro hc
      rw [hc] at hv
      simp at hv
      omega
    rw [runBeamSearch, beamStep, List.length_take, List.length_insertionSort]
    rcases Nat.eq_zero_or_pos m with hm | hm
    · subst hm
      simp [runBeamSearch, expandHyp]
      omega
    · have hlen := ih hm
      have hne : ∀ l ∈ (runBeamSearch lp vocab eos beam_size m).map
          (expandHyp lp vocab eos), l ≠ [] := by
        intro l hl
        rcases List.mem_map.mp hl with ⟨h0, _, hrfl⟩
        exact hrfl ▸ expandHyp_ne_nil lp vocab eos h0 hvne
      have h1 := length_le_length_flatten _ hne
      rw [List.length_map, hlen] at h1
      omega

/-- C3: for any scorer, the beam never exceeds `beam_size` hypotheses at any
step of the search, and the returned Beam contains exactly `beam_size`
(translation, score) hypotheses sorted ascending by normalized cost (lower is
better). -/
theorem c3_beam_size_invariants (lp : List Nat → Nat → ℚ) (vocab : List Nat)
    (eos beam_size maxlen : Nat) (alpha : ℚ)
    (hbs : 1 ≤ beam_size) (hv : beam_size ≤ vocab.length) (hml : 1 ≤ maxlen) :
    (∀ n, (runBeamSearch lp vocab eos beam_size n).length ≤ beam_size) ∧
    (finalBeam lp vocab eos beam_size maxlen alpha).length = beam_size ∧
    List.Sorted (keyLe (fun h => normalizedCost alpha h.cost h.toks.length))
      (finalBeam lp vocab eos beam_size maxlen alpha) := by
  refine ⟨runBeamSearch_length_le lp vocab eos beam_size hbs, ?_, ?_⟩
  · rw [finalBeam, List.length_insertionSort]
    exact runBeamSearch_length_eq lp vocab eos beam_size hbs hv maxlen hml
  · exact List.sorted_insertionSort _ _

/-- Witness for C3 at a concrete configuration: beam width 1, one-token
vocabulary, cap 1. -/
theorem c3_beam_size_invariants_witness :
    (runBeamSearch (fun _ _ => (0 : ℚ)) [0] 0 1 2).length ≤ 1 ∧
    (finalBeam (fun _ _ => (0 : ℚ)) [0] 0 1 1 0).length = 1 ∧
    List.Sorted (keyLe (fun h => normalizedCost 0 h.cost h.toks.length))
      (finalBeam (fun _ _ => (0 : ℚ)) [0] 0 1 1 0) := by
  have h := c3_beam_size_invariants (fun _ _ => (0 : ℚ)) [0] 0 1 1 0
    (by decide) (by decide) (by decide)
  exact ⟨h.1 2, h.2.1, h.2.2⟩

/-- C4: `sample` consults only the scorer at index 0: replacing the second and
every later scorer (keeping the cached sampling plan and the input, mask and
seed bundle fixed) leaves the output of `sample` — and the updated sampling
cache — unchanged. -/
theorem c4_sample_uses_first_scorer_only {M ι Out : Type}
    (sampleImpl : M → ι → SampleGraph M → Out) (m0 : M) (rest rest' : List M)
    (csg : Option (SampleGraph M)) (cbg cbg' : Option (BeamSearchGraph M)) (x : ι) :
    ((InferenceModelSet.mk (m0 :: rest) csg cbg).sample sampleImpl x).map
        (fun r => (r.1, r.2.cached_sample_graph)) =
    ((InferenceModelSet.mk (m0 :: rest') csg cbg').sample sampleImpl x).map
        (fun r => (r.1, r.2.cached_sample_graph)) := by
  cases csg <;> rfl

/-- C5: the cached beam-search plan is rebuilt iff no plan is cached or the
cached plan's beam width differs from the request; a matching cached plan is
reused unchanged and handed to the search; after any call the cached plan's
beam width equals the most recent request's. -/
theorem c5_beam_search_plan_cache {M ι Out : Type}
    (bsImpl : List M → ι → Nat → ℚ → BeamSearchGraph M → Out)
    (ms : InferenceModelSet M) (x : ι) (b : Nat) (a : ℚ) :
    (ms.beamSearchNeedsRebuild b = true ↔
      ms.cached_beam_search_graph = none ∨
      ∃ g, ms.cached_beam_search_graph = some g ∧ g.beam_size ≠ b) ∧
    (ms.beamSearchNeedsRebuild b = true →
      ms.beamSearchGraphFor b = BeamSearchGraph.mk ms.models b) ∧
    (∀ g, ms.cached_beam_search_graph = some g → g.beam_size = b →
      ms.beamSearchGraphFor b = g ∧
      (ms.beam_search bsImpl x b a).1 = bsImpl ms.models x b a g) ∧
    (ms.beam_search bsImpl x b a).2.cached_beam_search_graph
        = some (ms.beamSearchGraphFor b) ∧
    (ms.beamSearchGraphFor b).beam_size = b := by
  obtain ⟨mods, csg, cbg⟩ := ms
  cases cbg with
  | none =>
    refine ⟨by simp [InferenceModelSet.beamSearchNeedsRebuild], fun _ => rfl,
      ?_, rfl, rfl⟩
    intro g hg
    exact absurd hg (by simp)
  | some g0 =>
    by_cases hgb : g0.beam_size = b
    · refine ⟨?_, ?_, ?_, rfl, ?_⟩
      · simp [InferenceModelSet.beamSearchNeedsRebuild, bne_iff_ne, hgb]
      · intro hrb
        simp [InferenceModelSet.beamSearchNeedsRebuild, bne_iff_ne, hgb] at hrb
      · intro g hg hb
        have hgg : g = g0 := by
          injection hg with h'
          exact h'.symm
        subst hgg
        constructor
        · simp [InferenceModelSet.beamSearchGraphFor, hgb]
        · simp [InferenceModelSet.beam_search, InferenceModelSet.beamSearchGraphFor, hgb]
      · simp [InferenceModelSet.beamSearchGraphFor, hgb]
    · refine ⟨?_, ?_, ?_, rfl, ?_⟩
      · simp [InferenceModelSet.beamSearchNeedsRebuild, bne_iff_ne, hgb]
      · intro hrb
        simp [InferenceModelSet.beamSearchGraphFor, hgb]
      · intro g hg hb
        have hgg : g = g0 := by
          injection hg with h'
          exact h'.symm
        subst hgg
        exact absurd hb hgb
      · simp [InferenceModelSet.beamSearchGraphFor, hgb]

/-- Witness for C5 at a concrete model set: a cached plan keyed to beam width
3 is reused unchanged by a width-3 request and remains cached afterwards. -/
theorem c5_beam_search_plan_cache_witness :
    (InferenceModelSet.mk [4] none (some (BeamSearchGraph.mk [4] 3))).beamSearchGraphFor 3
      = BeamSearchGraph.mk [4] 3 ∧
    ((InferenceModelSet.mk [4] none
        (some (BeamSearchGraph.mk [4] 3))).beam_search
        (fun _ (_ : Unit) b _ g => g.beam_size) () 3 0).2.cached_beam_search_graph
      = some ((InferenceModelSet.mk [4] none
          (some (BeamSearchGraph.mk [4] 3))).beamSearchGraphFor 3) := by
  have h := c5_beam_search_plan_cache (fun _ (_ : Unit) b _ g => g.beam_size)
    (InferenceModelSet.mk [4] none (some (BeamSearchGraph.mk [4] 3))) () 3 0
  exact ⟨(h.2.2.1 (BeamSearchGraph.mk [4] 3) rfl rfl).1, h.2.2.2.1⟩

/-- C9: the default length-normalization exponent of the ensemble beam-search
API (`InferenceModelSet.beam_search`) is 0.0, the default of the
file-translation entry point (`translate_file`) is 1.0 — two independent,
different defaults — and with exponent 0 the normalized cost equals the raw
cost for every hypothesis cost and length. -/
theorem c9_normalization_alpha_defaults :
    beam_search_default_normalization_alpha = 0 ∧
    translate_file_default_normalization_alpha = 1 ∧
    beam_search_default_normalization_alpha
      ≠ translate_file_default_normalization_alpha ∧
    ∀ (cost : ℚ) (len : Nat),
      normalizedCost beam_search_default_normalization_alpha cost len = cost := by
  refine ⟨rfl, rfl, by decide, ?_⟩
  intro cost len
  rw [normalizedCost, beam_search_default_normalization_alpha]
  norm_num

end Nematus
